import Mathlib

/-!
# A verified model of the `godo` lexical scanner (`parse/lexer.go`)

The scanner reads runes one at a time from a stream that supports a single
rune of pushback.  We embed the stream as the list of characters that remain
to be read: `read` pops the head (returning the `eof` sentinel `rune(0)` on
an exhausted stream, without consuming anything), and `UnreadRune` is
modelled by simply not consuming the head (the scanner only ever pushes back
the most recently read rune).

Every Lean definition below is a direct transliteration of the corresponding
Go function in `parse/lexer.go`.
-/

namespace Parse

/-- `Token` identifies the type of data that was read (the `iota` constants
of `lexer.go`). -/
inductive Token where
  | ILLEGAL
  | EOF
  | WS
  | IDENT
  | STATUS_OPEN
  | STATUS_CLOSE
  | SLASH
  | SEMICOLON
  | COLON
  | ASTERISK
  | COMMA
  | DOT
  | HASHTAG
  | BRACKET
  | CURRENCY_SIGN
  | PARAGRAPH
  | AMPERSAND
  | EQUALS
  | TILDE
  | AT
  | PERCENT
  | DASH
  | UNDERSCORE
  deriving DecidableEq, Repr

/-- `var eof = rune(0)`: the sentinel rune returned by `read` on an
exhausted (or failed) stream. -/
def eof : Char := Char.ofNat 0

/-- `isWhitespace` from `lexer.go`: space, tab or newline. -/
def isWhitespace (ch : Char) : Bool :=
  ch = ' ' || ch = '\t' || ch = '\n'

/-- `isLetter` from `lexer.go`: ASCII letters plus the seven fixed
diacritics. -/
def isLetter (ch : Char) : Bool :=
  ('a' ≤ ch && ch ≤ 'z') ||
  ('A' ≤ ch && ch ≤ 'Z') ||
  ch = 'ä' || ch = 'Ö' ||
  ch = 'ö' || ch = 'Ä' ||
  ch = 'ü' || ch = 'Ü' ||
  ch = 'ß'

/-- `isDigit` from `lexer.go`: ASCII digits. -/
def isDigit (ch : Char) : Bool :=
  '0' ≤ ch && ch ≤ '9'

/-- The accumulation loop of `scanWhitespace`: keep reading while the rune
is whitespace; a read that yields `eof` stops the loop with the rune
consumed (this drops an actual NUL character from the stream); a
non-whitespace rune is pushed back (left on the stream).  Returns the
accumulated run and the remaining stream. -/
def wsLoop : List Char → List Char × List Char
  | [] => ([], [])
  | ch :: rest =>
    if ch = eof then ([], rest)
    else if !(isWhitespace ch) then ([], ch :: rest)
    else (ch :: (wsLoop rest).1, (wsLoop rest).2)

/-- The accumulation loop of `scanIdent`, symmetric to `wsLoop` with the
letter/digit classification. -/
def identLoop : List Char → List Char × List Char
  | [] => ([], [])
  | ch :: rest =>
    if ch = eof then ([], rest)
    else if !(isLetter ch) && !(isDigit ch) then ([], ch :: rest)
    else (ch :: (identLoop rest).1, (identLoop rest).2)

/-- `scanWhitespace` from `lexer.go`: read the current rune into the buffer
(an exhausted stream contributes the `eof` sentinel), then consume every
subsequent whitespace rune. -/
def scanWhitespace : List Char → (Token × String) × List Char
  | [] => ((Token.WS, String.mk [eof]), [])
  | ch :: rest => ((Token.WS, String.mk (ch :: (wsLoop rest).1)), (wsLoop rest).2)

/-- `scanIdent` from `lexer.go`: read the current rune into the buffer, then
consume every subsequent letter/digit rune. -/
def scanIdent : List Char → (Token × String) × List Char
  | [] => ((Token.IDENT, String.mk [eof]), [])
  | ch :: rest => ((Token.IDENT, String.mk (ch :: (identLoop rest).1)), (identLoop rest).2)

/-- The `switch ch` dispatch at the end of `Scan`, in source order; the
`eof` case precedes the default `ILLEGAL` return. -/
def symbolToken (ch : Char) : Token × String :=
  if ch = '#' then (Token.HASHTAG, "#")
  else if ch = '[' then (Token.STATUS_OPEN, "[")
  else if ch = ']' then (Token.STATUS_CLOSE, "]")
  else if ch = ',' then (Token.COMMA, ",")
  else if ch = '.' then (Token.DOT, ".")
  else if ch = ':' then (Token.COLON, ":")
  else if ch = ';' then (Token.SEMICOLON, ";")
  else if ch = '/' then (Token.SLASH, "/")
  else if ch = '*' then (Token.ASTERISK, "*")
  else if ch = '(' ∨ ch = ')' then (Token.BRACKET, String.mk [ch])
  else if ch = '~' then (Token.TILDE, "~")
  else if ch = '€' ∨ ch = '$' ∨ ch = '£' ∨ ch = '¥' then (Token.CURRENCY_SIGN, String.mk [ch])
  else if ch = '§' then (Token.PARAGRAPH, "§")
  else if ch = '&' then (Token.AMPERSAND, "&")
  else if ch = '=' then (Token.EQUALS, "=")
  else if ch = '@' then (Token.AT, "@")
  else if ch = '%' then (Token.PERCENT, "%")
  else if ch = '-' then (Token.DASH, "-")
  else if ch = '_' then (Token.UNDERSCORE, "_")
  else if ch = eof then (Token.EOF, String.mk [ch])
  else (Token.ILLEGAL, String.mk [ch])

/-- `Scan` from `lexer.go`: read one rune; on whitespace push it back and
delegate to `scanWhitespace`; on a letter/digit push it back and delegate to
`scanIdent`; otherwise dispatch on the single rune.  On an exhausted stream
the read yields the `eof` sentinel, which the switch maps to the `EOF`
token.  Returns the token together with the remaining stream. -/
def Scan : List Char → (Token × String) × List Char
  | [] => (symbolToken eof, [])
  | ch :: rest =>
    if isWhitespace ch then scanWhitespace (ch :: rest)
    else if isLetter ch || isDigit ch then scanIdent (ch :: rest)
    else (symbolToken ch, rest)

/-!
## The repeated-`Scan` protocol

A caller consumes the scanner token by token.  `scanState s n` is the stream
remaining after `n` calls to `Scan` starting from input `s`, and
`nthToken s n` is the token returned by the `(n+1)`-st call.  `tokenize`
collects every token emitted before the stream is exhausted; since each
`Scan` call on a nonempty stream consumes at least one character,
`s.length` calls always suffice, which lets us define the collection by
structural recursion on a fuel argument.
-/

/-- Run `Scan` repeatedly, collecting tokens, until the stream is empty or
the fuel runs out. -/
def scanTokens : Nat → List Char → List (Token × String)
  | 0, _ => []
  | _, [] => []
  | fuel + 1, ch :: rest => (Scan (ch :: rest)).1 :: scanTokens fuel (Scan (ch :: rest)).2

/-- All tokens emitted by repeated `Scan` calls up to (and excluding) the
point where the stream is exhausted. -/
def tokenize (s : List Char) : List (Token × String) :=
  scanTokens s.length s

/-- The stream remaining after `n` calls to `Scan` on input `s`. -/
def scanState (s : List Char) : Nat → List Char
  | 0 => s
  | n + 1 => (Scan (scanState s n)).2

/-- The token returned by the `(n+1)`-st call to `Scan` on input `s`. -/
def nthToken (s : List Char) (n : Nat) : Token × String :=
  (Scan (scanState s n)).1

/-- Concatenation of the lexemes of a token list, as a character list. -/
def concatLexemes : List (Token × String) → List Char
  | [] => []
  | p :: ts => p.2.data ++ concatLexemes ts

/-- The characters given their own case (other than `eof`) by the `switch`
in `Scan`, in source order. -/
def symbolChars : List Char :=
  ['#', '[', ']', ',', '.', ':', ';', '/', '*', '(', ')', '~',
   '€', '$', '£', '¥', '§', '&', '=', '@', '%', '-', '_']

/-- The identifier-character class as the specification words it: an ASCII
letter `a`–`z` or `A`–`Z`, an ASCII digit `0`–`9`, or one of the seven
diacritic characters `ä`, `Ö`, `ö`, `Ä`, `ü`, `Ü`, `ß`. -/
def specIdentChar (ch : Char) : Bool :=
  ('a' ≤ ch && ch ≤ 'z') || ('A' ≤ ch && ch ≤ 'Z') || ('0' ≤ ch && ch ≤ '9') ||
  ch = 'ä' || ch = 'Ö' || ch = 'ö' || ch = 'Ä' || ch = 'ü' || ch = 'Ü' || ch = 'ß'

/-!
## Basic facts about the run loops
-/

theorem wsLoop_rest_length (l : List Char) : (wsLoop l).2.length ≤ l.length := by
  induction l with
  | nil => simp [wsLoop]
  | cons ch rest ih =>
    simp only [wsLoop]
    split
    · simp
    · split
      · simp
      · simpa using Nat.le_succ_of_le ih

theorem identLoop_rest_length (l : List Char) : (identLoop l).2.length ≤ l.length := by
  induction l with
  | nil => simp [identLoop]
  | cons ch rest ih =>
    simp only [identLoop]
    split
    · simp
    · split
      · simp
      · simpa using Nat.le_succ_of_le ih

theorem Scan_rest_length (s : List Char) (h : s ≠ []) :
    (Scan s).2.length < s.length := by
  match s with
  | [] => exact absurd rfl h
  | ch :: rest =>
    simp only [Scan]
    split
    · simpa [scanWhitespace] using Nat.lt_succ_of_le (wsLoop_rest_length rest)
    · split
      · simpa [scanIdent] using Nat.lt_succ_of_le (identLoop_rest_length rest)
      · simp

theorem scanTokens_fuel (fuel : Nat) (s : List Char) (h : s.length ≤ fuel) :
    scanTokens fuel s = tokenize s := by
  induction fuel using Nat.strong_induction_on generalizing s with
  | _ fuel ih =>
    match fuel, s with
    | 0, s =>
      have : s = [] := List.eq_nil_of_length_eq_zero (Nat.le_zero.mp h)
      subst this
      simp [scanTokens, tokenize]
    | fuel + 1, [] => simp [scanTokens, tokenize]
    | fuel + 1, ch :: rest =>
      have hlt := Scan_rest_length (ch :: rest) (by simp)
      have h1 : (Scan (ch :: rest)).2.length ≤ fuel := by
        have := Nat.lt_of_lt_of_le hlt h
        omega
      have h2 : (Scan (ch :: rest)).2.length ≤ (ch :: rest).length - 1 := by
        simpa using Nat.lt_succ_iff.mp (by simpa using hlt)
      simp only [scanTokens, tokenize, List.length_cons]
      rw [ih fuel (Nat.lt_succ_self fuel) _ h1]
      rw [ih rest.length (by simp at h; omega) _ (by simpa using h2)]

theorem tokenize_nil : tokenize [] = [] := rfl

theorem tokenize_cons (s : List Char) (h : s ≠ []) :
    tokenize s = (Scan s).1 :: tokenize (Scan s).2 := by
  match s with
  | ch :: rest =>
    have hlt := Scan_rest_length (ch :: rest) (by simp)
    simp only [tokenize, List.length_cons, scanTokens]
    rw [scanTokens_fuel rest.length _ (by simpa using Nat.lt_succ_iff.mp hlt)]
    rfl

/-!
## Character-class facts
-/

theorem isWhitespace_cases (ch : Char) (h : isWhitespace ch = true) :
    ch = ' ' ∨ ch = '\t' ∨ ch = '\n' := by
  simpa [isWhitespace, or_assoc] using h

theorem ws_not_letter_digit (ch : Char) (h : isWhitespace ch = true) :
    (isLetter ch || isDigit ch) = false := by
  rcases isWhitespace_cases ch h with rfl | rfl | rfl <;> decide

theorem letter_digit_ne_eof (ch : Char) (h : (isLetter ch || isDigit ch) = true) :
    ch ≠ eof := by
  rintro rfl
  revert h
  decide

theorem ws_ne_eof (ch : Char) (h : isWhitespace ch = true) : ch ≠ eof := by
  rintro rfl
  revert h
  decide

/-!
## Facts about the run loops
-/

theorem wsLoop_split (l : List Char) (h : eof ∉ l) :
    (wsLoop l).1 ++ (wsLoop l).2 = l := by
  induction l with
  | nil => simp [wsLoop]
  | cons ch rest ih =>
    simp only [List.mem_cons, not_or] at h
    simp only [wsLoop]
    split
    · rename_i hc
      exact absurd hc.symm h.1
    · split
      · simp
      · simpa using ih h.2

theorem identLoop_split (l : List Char) (h : eof ∉ l) :
    (identLoop l).1 ++ (identLoop l).2 = l := by
  induction l with
  | nil => simp [identLoop]
  | cons ch rest ih =>
    simp only [List.mem_cons, not_or] at h
    simp only [identLoop]
    split
    · rename_i hc
      exact absurd hc.symm h.1
    · split
      · simp
      · simpa using ih h.2

theorem wsLoop_run (l : List Char) : ∀ c ∈ (wsLoop l).1, isWhitespace c = true := by
  induction l with
  | nil => simp [wsLoop]
  | cons ch rest ih =>
    simp only [wsLoop]
    split
    · simp
    · split
      · simp
      · rename_i h1 h2
        simp only [Bool.not_eq_true', Bool.not_eq_false] at h2
        intro c hc
        rcases List.mem_cons.mp hc with rfl | hc
        · exact h2
        · exact ih c hc

theorem identLoop_run (l : List Char) :
    ∀ c ∈ (identLoop l).1, (isLetter c || isDigit c) = true := by
  induction l with
  | nil => simp [identLoop]
  | cons ch rest ih =>
    simp only [identLoop]
    split
    · simp
    · split
      · simp
      · rename_i h1 h2
        intro c hc
        rcases List.mem_cons.mp hc with rfl | hc
        · cases hl : isLetter c <;> cases hd : isDigit c <;> simp_all
        · exact ih c hc

theorem wsLoop_rest_head (l : List Char) :
    eof ∉ l → ∀ d ds, (wsLoop l).2 = d :: ds → isWhitespace d = false := by
  induction l with
  | nil => intro _ d ds hrest; simp [wsLoop] at hrest
  | cons ch rest ih =>
    intro h d ds hrest
    simp only [List.mem_cons, not_or] at h
    simp only [wsLoop] at hrest
    revert hrest
    split
    · rename_i hc
      exact absurd hc.symm h.1
    · split
      · rename_i h1 h2
        intro hrest
        injection hrest with h3 h4
        subst h3
        simpa using h2
      · intro hrest
        exact ih h.2 d ds hrest

theorem identLoop_rest_head (l : List Char) :
    eof ∉ l → ∀ d ds, (identLoop l).2 = d :: ds → (isLetter d || isDigit d) = false := by
  induction l with
  | nil => intro _ d ds hrest; simp [identLoop] at hrest
  | cons ch rest ih =>
    intro h d ds hrest
    simp only [List.mem_cons, not_or] at h
    simp only [identLoop] at hrest
    revert hrest
    split
    · rename_i hc
      exact absurd hc.symm h.1
    · split
      · rename_i h1 h2
        intro hrest
        injection hrest with h3 h4
        subst h3
        simp only [Bool.and_eq_true, Bool.not_eq_true'] at h2
        simp [h2.1, h2.2]
      · intro hrest
        exact ih h.2 d ds hrest

/-!
## Facts about the single-character dispatch
-/

theorem symbolToken_spec (ch : Char) :
    (symbolToken ch).2 = String.mk [ch] ∧
    (symbolToken ch).1 ≠ Token.WS ∧
    (symbolToken ch).1 ≠ Token.IDENT ∧
    ((symbolToken ch).1 = Token.EOF → ch = eof) ∧
    (ch ∉ symbolChars → ch ≠ eof → symbolToken ch = (Token.ILLEGAL, String.mk [ch])) := by
  by_cases hmem : ch ∈ symbolChars ∨ ch = eof
  · rcases hmem with hmem | rfl
    · simp only [symbolChars, List.mem_cons, List.not_mem_nil, or_false] at hmem
      rcases hmem with rfl | rfl | rfl | rfl | rfl | rfl | rfl | rfl | rfl | rfl | rfl | rfl |
        rfl | rfl | rfl | rfl | rfl | rfl | rfl | rfl | rfl | rfl | rfl <;> decide
    · decide
  · simp only [symbolChars, List.mem_cons, List.not_mem_nil, or_false, not_or] at hmem
    obtain ⟨⟨n1, n2, n3, n4, n5, n6, n7, n8, n9, n10, n11, n12, n13, n14, n15, n16, n17,
      n18, n19, n20, n21, n22, n23⟩, neof⟩ := hmem
    have hu : symbolToken ch = (Token.ILLEGAL, String.mk [ch]) := by
      unfold symbolToken
      rw [if_neg n1, if_neg n2, if_neg n3, if_neg n4, if_neg n5, if_neg n6, if_neg n7,
        if_neg n8, if_neg n9, if_neg (not_or.mpr ⟨n10, n11⟩), if_neg n12,
        if_neg (by simp only [not_or]; exact ⟨n13, n14, n15, n16⟩), if_neg n17, if_neg n18,
        if_neg n19, if_neg n20, if_neg n21, if_neg n22, if_neg n23, if_neg neof]
    rw [hu]
    exact ⟨rfl, fun hcon => Token.noConfusion hcon, fun hcon => Token.noConfusion hcon,
      fun hcon => Token.noConfusion hcon, fun _ _ => rfl⟩

/-!
## Facts about a single `Scan` call
-/

theorem Scan_nil : Scan [] = ((Token.EOF, String.mk [eof]), []) := by decide

/-- What one `Scan` call emits, prepended to what it leaves behind, is the
stream it started from — provided no NUL character is involved. -/
theorem Scan_split (s : List Char) (hnul : eof ∉ s) (hne : s ≠ []) :
    (Scan s).1.2.data ++ (Scan s).2 = s := by
  match s with
  | ch :: rest =>
    simp only [List.mem_cons, not_or] at hnul
    by_cases hws : isWhitespace ch
    · simp only [Scan, if_pos hws, scanWhitespace]
      simpa using wsLoop_split rest (fun hmem => hnul.2 hmem)
    · by_cases hid : (isLetter ch || isDigit ch) = true
      · simp only [Scan, if_neg hws, if_pos hid, scanIdent]
        simpa using identLoop_split rest (fun hmem => hnul.2 hmem)
      · simp only [Scan, if_neg hws, if_neg hid]
        rw [(symbolToken_spec ch).1]
        rfl

theorem Scan_rest_nulfree (s : List Char) (hnul : eof ∉ s) : eof ∉ (Scan s).2 := by
  by_cases hne : s = []
  · subst hne
    simp [Scan_nil]
  · intro hmem
    have := Scan_split s hnul hne
    exact hnul (this ▸ List.mem_append_right _ hmem)

theorem Scan_WS_head (ch : Char) (rest : List Char)
    (h : (Scan (ch :: rest)).1.1 = Token.WS) : isWhitespace ch = true := by
  by_contra hcon
  simp only [Bool.not_eq_true] at hcon
  revert h
  simp only [Scan, hcon, Bool.false_eq_true, if_false]
  by_cases hid : (isLetter ch || isDigit ch) = true
  · simp [hid, scanIdent]
  · simp only [hid, if_false]
    exact (symbolToken_spec ch).2.1

theorem Scan_IDENT_head (ch : Char) (rest : List Char)
    (h : (Scan (ch :: rest)).1.1 = Token.IDENT) : (isLetter ch || isDigit ch) = true := by
  by_contra hcon
  simp only [Bool.not_eq_true] at hcon
  revert h
  by_cases hws : isWhitespace ch
  · simp [Scan, hws, scanWhitespace]
  · simp only [Scan, hws, Bool.false_eq_true, if_false, hcon]
    exact (symbolToken_spec ch).2.2.1

/-- On a NUL-free stream, `Scan` reports end-of-stream exactly when the
stream is exhausted. -/
theorem Scan_EOF_iff (s : List Char) (hnul : eof ∉ s) :
    (Scan s).1.1 = Token.EOF ↔ s = [] := by
  constructor
  · intro h
    match s with
    | [] => rfl
    | ch :: rest =>
      simp only [List.mem_cons, not_or] at hnul
      revert h
      by_cases hws : isWhitespace ch
      · simp [Scan, hws, scanWhitespace]
      · by_cases hid : (isLetter ch || isDigit ch) = true
        · simp [Scan, hws, hid, scanIdent]
        · simp only [Scan, hws, Bool.false_eq_true, if_false, hid]
          intro h
          exact absurd ((symbolToken_spec ch).2.2.2.1 h).symm hnul.1
  · rintro rfl
    rfl

/-- After a whitespace-run token, the next character on the stream (if any)
is not whitespace. -/
theorem Scan_rest_head_ws (ch : Char) (rest : List Char) (hnul : eof ∉ ch :: rest)
    (hws : isWhitespace ch = true) :
    ∀ d ds, (Scan (ch :: rest)).2 = d :: ds → isWhitespace d = false := by
  intro d ds hrest
  simp only [List.mem_cons, not_or] at hnul
  simp only [Scan, hws, if_true, scanWhitespace] at hrest
  exact wsLoop_rest_head rest (fun hmem => hnul.2 hmem) d ds hrest

/-- After an identifier-run token, the next character on the stream (if any)
is not a letter or digit. -/
theorem Scan_rest_head_ident (ch : Char) (rest : List Char) (hnul : eof ∉ ch :: rest)
    (hid : (isLetter ch || isDigit ch) = true) :
    ∀ d ds, (Scan (ch :: rest)).2 = d :: ds → (isLetter d || isDigit d) = false := by
  intro d ds hrest
  simp only [List.mem_cons, not_or] at hnul
  have hws : isWhitespace ch = false := by
    by_contra hcon
    simp only [Bool.not_eq_false] at hcon
    exact absurd hid (by simp [ws_not_letter_digit ch hcon])
  simp only [Scan, hws, Bool.false_eq_true, if_false, hid, if_true, scanIdent] at hrest
  exact identLoop_rest_head rest (fun hmem => hnul.2 hmem) d ds hrest

/-- The lexeme of the token produced from a stream starting with a non-NUL
character starts with that character. -/
theorem Scan_lexeme_head (ch : Char) (rest : List Char) :
    (Scan (ch :: rest)).1.2.data.head? = some ch := by
  by_cases hws : isWhitespace ch
  · simp [Scan, hws, scanWhitespace]
  · by_cases hid : (isLetter ch || isDigit ch) = true
    · simp [Scan, hws, hid, scanIdent]
    · simp only [Scan, hws, Bool.false_eq_true, if_false, hid]
      rw [(symbolToken_spec ch).1]
      rfl

/-!
## Facts about the full token sequence
-/

theorem tokenize_concat_aux (n : Nat) :
    ∀ s : List Char, s.length ≤ n → eof ∉ s →
      concatLexemes (tokenize s) = s := by
  induction n with
  | zero =>
    intro s hlen _
    have : s = [] := List.eq_nil_of_length_eq_zero (Nat.le_zero.mp hlen)
    subst this
    rfl
  | succ n ih =>
    intro s hlen hnul
    by_cases hne : s = []
    · subst hne
      rfl
    · rw [tokenize_cons s hne]
      simp only [concatLexemes]
      have hlt := Scan_rest_length s hne
      rw [ih (Scan s).2 (by omega) (Scan_rest_nulfree s hnul)]
      exact Scan_split s hnul hne

theorem tokenize_no_EOF_aux (n : Nat) :
    ∀ s : List Char, s.length ≤ n → eof ∉ s →
      ∀ p ∈ tokenize s, p.1 ≠ Token.EOF := by
  induction n with
  | zero =>
    intro s hlen _
    have : s = [] := List.eq_nil_of_length_eq_zero (Nat.le_zero.mp hlen)
    subst this
    simp [tokenize_nil]
  | succ n ih =>
    intro s hlen hnul p hp
    by_cases hne : s = []
    · subst hne
      simp [tokenize_nil] at hp
    · rw [tokenize_cons s hne] at hp
      rcases List.mem_cons.mp hp with rfl | hp
      · intro hcon
        exact hne ((Scan_EOF_iff s hnul).mp hcon)
      · have hlt := Scan_rest_length s hne
        exact ih (Scan s).2 (by omega) (Scan_rest_nulfree s hnul) p hp

theorem scanState_nulfree (s : List Char) (h : eof ∉ s) (n : Nat) :
    eof ∉ scanState s n := by
  induction n with
  | zero => exact h
  | succ n ih => exact Scan_rest_nulfree _ ih

theorem scanState_stable (s : List Char) (n : Nat) (h : scanState s n = []) :
    ∀ m, n ≤ m → scanState s m = [] := by
  intro m hm
  induction m with
  | zero =>
    have : n = 0 := Nat.le_zero.mp hm
    subst this
    exact h
  | succ m ih =>
    rcases Nat.lt_or_ge n (m + 1) with hlt | hge
    · have := ih (Nat.lt_succ_iff.mp hlt)
      show (Scan (scanState s m)).2 = []
      rw [this]
      rfl
    · have : n = m + 1 := Nat.le_antisymm hm hge
      subst this
      exact h

theorem scanState_succ_front (s : List Char) (n : Nat) :
    scanState s (n + 1) = scanState (Scan s).2 n := by
  induction n with
  | zero => rfl
  | succ n ih =>
    show (Scan (scanState s (n + 1))).2 = (Scan (scanState (Scan s).2 n)).2
    rw [ih]

theorem tokenize_get (i : Nat) :
    ∀ (s : List Char) (p : Token × String), (tokenize s)[i]? = some p →
      scanState s i ≠ [] ∧ p = nthToken s i := by
  induction i with
  | zero =>
    intro s p hp
    by_cases hne : s = []
    · subst hne
      simp [tokenize_nil] at hp
    · rw [tokenize_cons s hne] at hp
      simp only [List.getElem?_cons_zero, Option.some.injEq] at hp
      exact ⟨hne, hp.symm⟩
  | succ i ih =>
    intro s p hp
    by_cases hne : s = []
    · subst hne
      simp [tokenize_nil] at hp
    · rw [tokenize_cons s hne] at hp
      simp only [List.getElem?_cons_succ] at hp
      obtain ⟨h1, h2⟩ := ih (Scan s).2 p hp
      refine ⟨by rwa [scanState_succ_front], ?_⟩
      rw [h2]
      show (Scan (scanState (Scan s).2 i)).1 = (Scan (scanState s (i + 1))).1
      rw [scanState_succ_front]

theorem letter_not_ws (ch : Char) (h : isLetter ch = true) : isWhitespace ch = false := by
  by_contra hcon
  simp only [Bool.not_eq_false] at hcon
  have := ws_not_letter_digit ch hcon
  simp [h] at this

/-- `identLoop` on a stream that starts with a (NUL-free) run of
letters/digits followed by a non-letter/digit character consumes exactly the
run and pushes the boundary character back. -/
theorem identLoop_run_exact (ws : List Char) (c : Char) (rest : List Char)
    (hws : ∀ x ∈ ws, (isLetter x || isDigit x) = true)
    (hc : (isLetter c || isDigit c) = false) (hnul : c ≠ eof) :
    identLoop (ws ++ c :: rest) = (ws, c :: rest) := by
  induction ws with
  | nil =>
    simp only [List.nil_append, identLoop]
    rw [if_neg hnul]
    rw [if_pos]
    simp only [Bool.or_eq_false_iff] at hc
    simp [hc.1, hc.2]
  | cons x ws ih =>
    have hx := hws x (List.mem_cons_self x ws)
    have hnot : ¬((!(isLetter x) && !(isDigit x)) = true) := by
      simp only [Bool.and_eq_true, Bool.not_eq_true']
      rintro ⟨hl, hd⟩
      simp [hl, hd] at hx
    simp only [List.cons_append, identLoop]
    rw [if_neg (letter_digit_ne_eof x hx), if_neg hnot]
    simp only [List.append_eq]
    rw [ih (fun y hy => hws y (List.mem_cons_of_mem x hy))]

/-!
## The claims
-/

/-- Claim C3 (counterexample): it is not the case that every input
containing NUL strictly before its end leads to some `Scan` call returning
the EOF token while the stream is not yet exhausted.  On `"a\x00b"` the NUL
is silently swallowed by the identifier-run loop: the emitted tokens are
`IDENT "a"`, `IDENT "b"` and only then terminal EOF tokens on the exhausted
stream. -/
theorem C3_nul_eof_counterexample :
    ¬ (∀ s : List Char, (∃ i, i + 1 < s.length ∧ s[i]? = some eof) →
        ∃ n, nthToken s n = (Token.EOF, String.mk [eof]) ∧ scanState s n ≠ []) := by
  intro h
  obtain ⟨n, hn, hne⟩ := h ['a', eof, 'b'] ⟨1, by decide, by decide⟩
  match n, hn, hne with
  | 0, hn, _ => exact absurd hn (by decide)
  | 1, hn, _ => exact absurd hn (by decide)
  | k + 2, _, hne =>
    exact hne (scanState_stable ['a', eof, 'b'] 2 (by decide) (k + 2) (by omega))

/-- Claim C3 (amended): when a `Scan` call finds NUL at the *head* of the
remaining stream, it consumes only the NUL and returns an EOF-kind token
with the one-character NUL lexeme even though input remains, and subsequent
calls tokenize that remaining input; a NUL reached *inside* a
whitespace/identifier run is instead consumed silently by the run loop with
no EOF token emitted for it. -/
theorem C3_nul_eof (rest : List Char) :
    Scan (eof :: rest) = ((Token.EOF, String.mk [eof]), rest) := rfl

/-- Claim C2 (counterexample): the very first `Scan` call on `"\x00a"`
returns an end-of-stream token (the NUL is read and dispatched to the `eof`
switch case), yet the next call returns `IDENT "a"`, so an end-of-stream
token is not a terminal state for every input. -/
theorem C2_idempotent_counterexample :
    ¬ (∀ (s : List Char) (n m : Nat), (nthToken s n).1 = Token.EOF → n < m →
        nthToken s m = (Token.EOF, String.mk [eof])) := by
  intro h
  have := h [eof, 'a'] 0 1 (by decide) (by decide)
  exact absurd this (by decide)

/-- Claim C2 (amended): for every input that contains no NUL character,
after the first `Scan` call that returns an end-of-stream token every
subsequent `Scan` call returns another end-of-stream token with the same
one-character sentinel lexeme (character value zero). -/
theorem C2_idempotent (s : List Char) (hnul : eof ∉ s) (n m : Nat)
    (hEOF : (nthToken s n).1 = Token.EOF) (hnm : n < m) :
    nthToken s m = (Token.EOF, String.mk [eof]) := by
  have hstate : scanState s n = [] :=
    (Scan_EOF_iff (scanState s n) (scanState_nulfree s hnul n)).mp hEOF
  have : scanState s m = [] := scanState_stable s n hstate m (Nat.le_of_lt hnm)
  show (Scan (scanState s m)).1 = _
  rw [this, Scan_nil]

theorem C2_idempotent_witness :
    eof ∉ ['a'] ∧ (nthToken ['a'] 1).1 = Token.EOF ∧ (1 : Nat) < 5 ∧
      nthToken ['a'] 5 = (Token.EOF, String.mk [eof]) :=
  ⟨by decide, by decide, by decide,
    C2_idempotent ['a'] (by decide) 1 5 (by decide) (by decide)⟩

/-- Claim C6: scanning each of the one-character inputs `[`, `]`, `#`, `(`,
`)`, `$`, `€`, `~`, `-` alone yields exactly one token, of kind
STATUS_OPEN, STATUS_CLOSE, HASHTAG, BRACKET, BRACKET, CURRENCY_SIGN,
CURRENCY_SIGN, TILDE, DASH respectively, with the input character as
lexeme. -/
theorem C6_single_char :
    tokenize ['['] = [(Token.STATUS_OPEN, "[")] ∧
    tokenize [']'] = [(Token.STATUS_CLOSE, "]")] ∧
    tokenize ['#'] = [(Token.HASHTAG, "#")] ∧
    tokenize ['('] = [(Token.BRACKET, "(")] ∧
    tokenize [')'] = [(Token.BRACKET, ")")] ∧
    tokenize ['$'] = [(Token.CURRENCY_SIGN, "$")] ∧
    tokenize ['€'] = [(Token.CURRENCY_SIGN, "€")] ∧
    tokenize ['~'] = [(Token.TILDE, "~")] ∧
    tokenize ['-'] = [(Token.DASH, "-")] := by
  decide

/-- Claim C7: scanning `"#today [x] 5€ ä_b"` yields HASHTAG, IDENT "today",
WS, STATUS_OPEN, IDENT "x", STATUS_CLOSE, WS, IDENT "5", CURRENCY_SIGN, WS,
IDENT "ä", UNDERSCORE, IDENT "b", followed by end-of-stream tokens; the
underscore is its own token class and does not join the surrounding
identifier runs. -/
theorem C7_example :
    tokenize "#today [x] 5€ ä_b".data =
      [(Token.HASHTAG, "#"), (Token.IDENT, "today"), (Token.WS, " "),
       (Token.STATUS_OPEN, "["), (Token.IDENT, "x"), (Token.STATUS_CLOSE, "]"),
       (Token.WS, " "), (Token.IDENT, "5"), (Token.CURRENCY_SIGN, "€"),
       (Token.WS, " "), (Token.IDENT, "ä"), (Token.UNDERSCORE, "_"),
       (Token.IDENT, "b")] ∧
    nthToken "#today [x] 5€ ä_b".data 13 = (Token.EOF, String.mk [eof]) ∧
    nthToken "#today [x] 5€ ä_b".data 14 = (Token.EOF, String.mk [eof]) := by
  decide

/-- Claim C1 (counterexample): losslessness fails for inputs containing NUL.
On `"a\x00"` the identifier-run loop consumes the NUL silently, so the only
token emitted is `IDENT "a"` and the concatenation of all non-EOF lexemes
is `"a"`, not the input. -/
theorem C1_losslessness_counterexample :
    ¬ (∀ s : List Char,
        concatLexemes ((tokenize s).filter fun p => decide (p.1 ≠ Token.EOF)) = s) := by
  intro h
  have := h ['a', eof]
  exact absurd this (by decide)

/-- Claim C1 (amended): for every input containing no NUL character, every
token emitted before the stream is exhausted is a non-EOF token, and
concatenating their lexemes in emission order reproduces the input exactly
(the only excluded tokens are the end-of-stream sentinels emitted on the
exhausted stream, which carry no consumed input). -/
theorem C1_losslessness (s : List Char) (hnul : eof ∉ s) :
    (∀ p ∈ tokenize s, p.1 ≠ Token.EOF) ∧ concatLexemes (tokenize s) = s :=
  ⟨tokenize_no_EOF_aux s.length s (Nat.le_refl _) hnul,
    tokenize_concat_aux s.length s (Nat.le_refl _) hnul⟩

theorem C1_losslessness_witness :
    eof ∉ ['5', '€', ' ', 'ä'] ∧
      (∀ p ∈ tokenize ['5', '€', ' ', 'ä'], p.1 ≠ Token.EOF) ∧
      concatLexemes (tokenize ['5', '€', ' ', 'ä']) = ['5', '€', ' ', 'ä'] :=
  ⟨by decide, C1_losslessness ['5', '€', ' ', 'ä'] (by decide)⟩

/-- Claim C4 (counterexample): on `"a\x00b"` the scanner emits the two
adjacent identifier-run tokens `IDENT "a"` and `IDENT "b"` (the NUL is
swallowed by the first run's loop), so run-maximality as stated over all
inputs fails. -/
theorem C4_run_maximality_counterexample :
    ¬ (∀ (s : List Char) (i : Nat) (p q : Token × String),
        (tokenize s)[i]? = some p → (tokenize s)[i + 1]? = some q →
        ¬(p.1 = Token.WS ∧ q.1 = Token.WS) ∧
        ¬(p.1 = Token.IDENT ∧ q.1 = Token.IDENT)) := by
  intro h
  exact (h ['a', eof, 'b'] 0 (Token.IDENT, "a") (Token.IDENT, "b")
    (by decide) (by decide)).2 ⟨rfl, rfl⟩

/-- Claim C4 (amended): for every input containing no NUL character, no two
adjacent emitted tokens are both whitespace-run tokens, and no two adjacent
emitted tokens are both identifier-run tokens (runs are consumed greedily
to their maximal extent). -/
theorem C4_run_maximality (s : List Char) (hnul : eof ∉ s) (i : Nat)
    (p q : Token × String)
    (hp : (tokenize s)[i]? = some p) (hq : (tokenize s)[i + 1]? = some q) :
    ¬(p.1 = Token.WS ∧ q.1 = Token.WS) ∧
    ¬(p.1 = Token.IDENT ∧ q.1 = Token.IDENT) := by
  obtain ⟨hi, hpv⟩ := tokenize_get i s p hp
  obtain ⟨hi1, hqv⟩ := tokenize_get (i + 1) s q hq
  obtain ⟨c, cs, hst⟩ := List.exists_cons_of_ne_nil hi
  obtain ⟨d, ds, hst1⟩ := List.exists_cons_of_ne_nil hi1
  have hnul_i : eof ∉ scanState s i := scanState_nulfree s hnul i
  have hrest : (Scan (c :: cs)).2 = d :: ds := by
    rw [← hst]
    show (Scan (scanState s i)).2 = d :: ds
    exact hst1
  constructor
  · rintro ⟨hpWS, hqWS⟩
    have hc : isWhitespace c = true := by
      apply Scan_WS_head c cs
      rw [← hst]
      exact (congrArg Prod.fst hpv).symm.trans hpWS
    have hd_false : isWhitespace d = false :=
      Scan_rest_head_ws c cs (hst ▸ hnul_i) hc d ds hrest
    have hd_true : isWhitespace d = true := by
      apply Scan_WS_head d ds
      rw [← hst1]
      exact (congrArg Prod.fst hqv).symm.trans hqWS
    simp [hd_true] at hd_false
  · rintro ⟨hpID, hqID⟩
    have hc : (isLetter c || isDigit c) = true := by
      apply Scan_IDENT_head c cs
      rw [← hst]
      exact (congrArg Prod.fst hpv).symm.trans hpID
    have hd_false : (isLetter d || isDigit d) = false :=
      Scan_rest_head_ident c cs (hst ▸ hnul_i) hc d ds hrest
    have hd_true : (isLetter d || isDigit d) = true := by
      apply Scan_IDENT_head d ds
      rw [← hst1]
      exact (congrArg Prod.fst hqv).symm.trans hqID
    simp [hd_true] at hd_false

theorem C4_run_maximality_witness :
    eof ∉ [' ', 'a'] ∧ (tokenize [' ', 'a'])[0]? = some (Token.WS, " ") ∧
      (tokenize [' ', 'a'])[1]? = some (Token.IDENT, "a") ∧
      (¬((Token.WS, " ").1 = Token.WS ∧ (Token.IDENT, "a").1 = Token.WS) ∧
        ¬((Token.WS, " ").1 = Token.IDENT ∧ (Token.IDENT, "a").1 = Token.IDENT)) :=
  ⟨by decide, by decide, by decide,
    C4_run_maximality [' ', 'a'] (by decide) 0 (Token.WS, " ") (Token.IDENT, "a")
      (by decide) (by decide)⟩

/-- Claim C5 (counterexample): a letter immediately followed by NUL (a
character that is neither a letter nor a digit) does *not* leave the NUL on
the stream as its own next token: on `"a\x00b"` the identifier loop
consumes the NUL, the scanner state jumps straight to `"b"`, and no token
with the NUL lexeme is ever emitted for it. -/
theorem C5_boundary_counterexample :
    ¬ (∀ (w : Char) (ws : List Char) (c : Char) (rest : List Char),
        isLetter w = true → (∀ x ∈ ws, (isLetter x || isDigit x) = true) →
        (isLetter c || isDigit c) = false →
        Scan (w :: (ws ++ c :: rest)) = ((Token.IDENT, String.mk (w :: ws)), c :: rest) ∧
        (Scan (c :: rest)).1.2 = String.mk [c]) := by
  intro h
  have := (h 'a' [] eof ['b'] (by decide) (by simp) (by decide)).1
  exact absurd this (by decide)

/-- Claim C5 (amended): for every input in which a letter begins a
letter/digit run immediately followed by a character that is neither a
letter, a digit, nor NUL, the identifier-run token ends exactly before that
character, leaving it on the stream; the next `Scan` call returns a token
whose lexeme begins with that character, and when that character is not
whitespace its token's lexeme is exactly that one character (a NUL in that
position is instead consumed silently by the run loop). -/
theorem C5_boundary (w : Char) (ws : List Char) (c : Char) (rest : List Char)
    (hw : isLetter w = true) (hws : ∀ x ∈ ws, (isLetter x || isDigit x) = true)
    (hc : (isLetter c || isDigit c) = false) (hnul : c ≠ eof) :
    Scan (w :: (ws ++ c :: rest)) = ((Token.IDENT, String.mk (w :: ws)), c :: rest) ∧
    (Scan (c :: rest)).1.2.data.head? = some c ∧
    (isWhitespace c = false → (Scan (c :: rest)).1.2 = String.mk [c]) := by
  refine ⟨?_, Scan_lexeme_head c rest, ?_⟩
  · have hwsw : isWhitespace w = false := letter_not_ws w hw
    have hid : (isLetter w || isDigit w) = true := by simp [hw]
    simp only [Scan, hwsw, Bool.false_eq_true, if_false, hid, if_true, scanIdent]
    rw [identLoop_run_exact ws c rest hws hc hnul]
  · intro hwsc
    simp only [Scan, hwsc, Bool.false_eq_true, if_false, hc]
    exact (symbolToken_spec c).1

theorem C5_boundary_witness :
    isLetter 'a' = true ∧ (isLetter '#' || isDigit '#') = false ∧ '#' ≠ eof ∧
      (Scan ['a', 'b', '#', ' '] = ((Token.IDENT, "ab"), ['#', ' ']) ∧
        (Scan ['#', ' ']).1.2.data.head? = some '#' ∧
        (isWhitespace '#' = false → (Scan ['#', ' ']).1.2 = String.mk ['#'])) :=
  ⟨by decide, by decide, by decide, by
    have := C5_boundary 'a' ['b'] '#' [' '] (by decide) (by decide) (by decide) (by decide)
    simpa using this⟩

/-- Claim C8: `Scan` delegates to the identifier-run rule exactly on the
characters of the spec's identifier class (ASCII letters, ASCII digits and
the seven fixed diacritics); digit-initial runs get no special treatment
(the same delegation and the same run rule apply), and on every other
character the returned token is never an identifier-run token. -/
theorem C8_ident_class (c : Char) (rest : List Char) :
    (isLetter c || isDigit c) = specIdentChar c ∧
    ((isLetter c || isDigit c) = true → Scan (c :: rest) = scanIdent (c :: rest)) ∧
    ((isLetter c || isDigit c) = false → (Scan (c :: rest)).1.1 ≠ Token.IDENT) := by
  refine ⟨?_, ?_, ?_⟩
  · rw [Bool.eq_iff_iff]
    simp only [isLetter, isDigit, specIdentChar, Bool.or_eq_true, Bool.and_eq_true,
      decide_eq_true_eq]
    tauto
  · intro hid
    have hws : isWhitespace c = false := by
      by_contra hcon
      simp only [Bool.not_eq_false] at hcon
      have := ws_not_letter_digit c hcon
      simp [this] at hid
    simp [Scan, hws, hid]
  · intro hid
    by_cases hws : isWhitespace c
    · simp [Scan, hws, scanWhitespace]
    · simp only [Scan, hws, Bool.false_eq_true, if_false, hid]
      exact (symbolToken_spec c).2.2.1

theorem C8_ident_class_witness :
    ((isLetter '5' || isDigit '5') = specIdentChar '5' ∧
      ((isLetter '5' || isDigit '5') = true → Scan ['5', 'x'] = scanIdent ['5', 'x']) ∧
      ((isLetter '5' || isDigit '5') = false → (Scan ['5', 'x']).1.1 ≠ Token.IDENT)) :=
  C8_ident_class '5' ['x']

/-- Claim C9 (counterexample): the NUL character is not whitespace, not a
letter or digit, and not in the fixed symbol table, yet `Scan` maps it to
the EOF token kind, not to the unrecognized/ILLEGAL kind. -/
theorem C9_illegal_counterexample :
    ¬ (∀ (c : Char) (rest : List Char),
        isWhitespace c = false → (isLetter c || isDigit c) = false →
        c ∉ symbolChars →
        Scan (c :: rest) = ((Token.ILLEGAL, String.mk [c]), rest)) := by
  intro h
  have := h eof [] (by decide) (by decide) (by decide)
  exact absurd this (by decide)

/-- Claim C9 (amended): `Scan` is a total function with no error outcome,
and every single character that is not whitespace, not a letter or digit,
not in the fixed single-character symbol table, and not the NUL sentinel
(which instead produces the EOF token) yields an unrecognized/ILLEGAL
token whose lexeme is exactly that one character. -/
theorem C9_illegal (c : Char) (rest : List Char)
    (h1 : isWhitespace c = false) (h2 : (isLetter c || isDigit c) = false)
    (h3 : c ∉ symbolChars) (h4 : c ≠ eof) :
    Scan (c :: rest) = ((Token.ILLEGAL, String.mk [c]), rest) := by
  simp only [Scan, h1, Bool.false_eq_true, if_false, h2]
  rw [(symbolToken_spec c).2.2.2.2 h3 h4]

theorem C9_illegal_witness :
    isWhitespace '?' = false ∧ (isLetter '?' || isDigit '?') = false ∧
      '?' ∉ symbolChars ∧ '?' ≠ eof ∧
      Scan ['?', 'x'] = ((Token.ILLEGAL, "?"), ['x']) :=
  ⟨by decide, by decide, by decide, by decide,
    C9_illegal '?' ['x'] (by decide) (by decide) (by decide) (by decide)⟩

/-- Claim C10: every token returned by a `Scan` call, from any scanner
state, has a non-empty lexeme; a whitespace-run token's lexeme consists
only of space/tab/newline characters; an identifier-run token's lexeme
consists only of letters (ASCII plus the seven fixed diacritics) and ASCII
digits; and every other token's lexeme (single-character classes,
unrecognized, end-of-stream) is exactly one character long. -/
theorem C10_wellformed (s : List Char) :
    (Scan s).1.2.data ≠ [] ∧
    ((Scan s).1.1 = Token.WS → ∀ c ∈ (Scan s).1.2.data, isWhitespace c = true) ∧
    ((Scan s).1.1 = Token.IDENT → ∀ c ∈ (Scan s).1.2.data, (isLetter c || isDigit c) = true) ∧
    ((Scan s).1.1 ≠ Token.WS → (Scan s).1.1 ≠ Token.IDENT → (Scan s).1.2.data.length = 1) := by
  match s with
  | [] => exact ⟨by decide, by decide, by decide, by decide⟩
  | ch :: rest =>
    by_cases hws : isWhitespace ch
    · simp only [Scan, hws, if_true, scanWhitespace]
      refine ⟨by simp, ?_, ?_, ?_⟩
      · intro _ c hc
        rcases List.mem_cons.mp hc with rfl | hc
        · exact hws
        · exact wsLoop_run rest c hc
      · intro hcon
        exact absurd hcon (by decide)
      · intro hcon
        exact absurd rfl hcon
    · by_cases hid : (isLetter ch || isDigit ch) = true
      · simp only [Scan, hws, Bool.false_eq_true, if_false, hid, if_true, scanIdent]
        refine ⟨by simp, ?_, ?_, ?_⟩
        · intro hcon
          exact absurd hcon (by decide)
        · intro _ c hc
          rcases List.mem_cons.mp hc with rfl | hc
          · exact hid
          · exact identLoop_run rest c hc
        · intro _ hcon
          exact absurd rfl hcon
      · simp only [Scan, hws, Bool.false_eq_true, if_false, hid]
        have hlex := (symbolToken_spec ch).1
        refine ⟨?_, ?_, ?_, ?_⟩
        · show (symbolToken ch).2.data ≠ []
          rw [hlex]
          simp
        · intro hcon
          exact absurd hcon (symbolToken_spec ch).2.1
        · intro hcon
          exact absurd hcon (symbolToken_spec ch).2.2.1
        · intro _ _
          show (symbolToken ch).2.data.length = 1
          rw [hlex]
          rfl

theorem C10_wellformed_witness :
    ((Scan [' ', '\t', 'x']).1.2.data ≠ [] ∧
      ((Scan [' ', '\t', 'x']).1.1 = Token.WS →
        ∀ c ∈ (Scan [' ', '\t', 'x']).1.2.data, isWhitespace c = true) ∧
      ((Scan [' ', '\t', 'x']).1.1 = Token.IDENT →
        ∀ c ∈ (Scan [' ', '\t', 'x']).1.2.data, (isLetter c || isDigit c) = true) ∧
      ((Scan [' ', '\t', 'x']).1.1 ≠ Token.WS → (Scan [' ', '\t', 'x']).1.1 ≠ Token.IDENT →
        (Scan [' ', '\t', 'x']).1.2.data.length = 1)) :=
  C10_wellformed [' ', '\t', 'x']

end Parse
